import Mathlib

/-!
The `proj_shell` command interpreter (`os_practice/extra/proj_shell/shell.c`).

A shallow embedding of `parse_command`, `parse_buffer`, `execute` and the session loop of
`main`, together with the properties the design document states about them.

Modelling conventions.

* A `char *` that points at a C string is the list of the characters from the pointee up to,
  and excluding, the terminating NUL.  Dereferencing the empty list reads the terminator.
  Pointer increment is `List.tail`; a pointer difference is a difference of lengths.
* A heap block of pointers (`argv`, `command_vec`) is a list of slots.  A slot is a null
  pointer, a pointer to a value, or indeterminate (fresh `realloc` storage).  Writes and reads
  are bounds checked; leaving the block is a fault.
* `calloc`/`realloc` always succeed.
* `while` loops whose termination is not structural take a fuel argument; running out of fuel
  is a fault, and the theorems show that the fuel supplied by the callers is always enough.
* `fork` and `wait` are oracles of the environment, indexed by call number; `execvp` is an
  oracle indexed by the command.  The functions of `<ctype.h>` and `<string.h>` follow ISO C.
-/

namespace Shell

/-! ## Characters and C strings -/

abbrev CString := List Char

/-- The string terminator. -/
def NUL : Char := '\x00'

/-- Value of `*p`: the first character, or the terminator when `p` is at the end. -/
def deref (p : CString) : Char := p.headD NUL

/-- The function `isspace` of `<ctype.h>` in the C locale: space, `\t`, `\n`, `\v`, `\f`, `\r`. -/
def isspace (c : Char) : Bool :=
  c == ' ' || c == '\t' || c == '\n' || c == '\x0b' || c == '\x0c' || c == '\r'

/-- The loop `while (isspace(*p) && *p != 0) p++;` (lines 128-130 and 148-150). -/
def skip_space : CString → CString
  | [] => []
  | c :: cs => if isspace c && c != NUL then skip_space cs else c :: cs

/-- The loop `while (!isspace(*p) && *p != 0) p++;` (lines 138-140 and 155-157). -/
def skip_token : CString → CString
  | [] => []
  | c :: cs => if !isspace c && c != NUL then skip_token cs else c :: cs

/-- The string left in a zeroed buffer of `n + 1` bytes by `strncpy(dst, src, n)`. -/
def strncpy (src : CString) (n : Nat) : CString :=
  (src.take n).takeWhile (fun c => c != NUL)

/-! ## Pointer blocks -/

inductive Slot (α : Type) where
  | garbage : Slot α
  | null : Slot α
  | ptr : α → Slot α
  deriving DecidableEq, Repr

inductive Fault where
  | out_of_bounds
  | out_of_fuel
  deriving DecidableEq, Repr

/-- A zeroed block of `n` pointers: `calloc(n, sizeof(void *))`. -/
def calloc {α : Type} (n : Nat) : List (Slot α) := List.replicate n Slot.null

/-- Resize a block to `n` pointers; contents up to the smaller size are kept, new storage is
indeterminate. -/
def realloc {α : Type} (m : List (Slot α)) (n : Nat) : List (Slot α) :=
  m.take n ++ List.replicate (n - m.length) Slot.garbage

/-- The assignment `m[i] = v`. -/
def store {α : Type} (m : List (Slot α)) (i : Nat) (v : Slot α) : Except Fault (List (Slot α)) :=
  if i < m.length then .ok (m.set i v) else .error Fault.out_of_bounds

/-- The append sequence shared by `parse_buffer` (lines 104-110) and `parse_command`
(lines 159-166): store the entry at index `len`, increment `len`, store the sentinel at the
new `len`, and double the capacity when `len` has reached it. -/
def append_entry {α : Type} (vec : List (Slot α)) (len cap : Nat) (x : α) :
    Except Fault (List (Slot α) × Nat × Nat) :=
  match store vec len (Slot.ptr x) with
  | .error e => .error e
  | .ok vec1 =>
    match store vec1 (len + 1) Slot.null with
    | .error e => .error e
    | .ok vec2 =>
      if len + 1 == cap then .ok (realloc vec2 (cap * 2 + 1), len + 1, cap * 2)
      else .ok (vec2, len + 1, cap)

/-- Read a sentinel-terminated block the way `for (i = 0; vec[i] != NULL; i++)` does. -/
def read_vec {α : Type} : List (Slot α) → Except Fault (List α)
  | [] => .error Fault.out_of_bounds
  | Slot.garbage :: _ => .error Fault.out_of_bounds
  | Slot.null :: _ => .ok []
  | Slot.ptr a :: rest =>
    match read_vec rest with
    | .error e => .error e
    | .ok l => .ok (a :: l)

/-! ## `parse_command` -/

structure Command where
  cmd : CString
  argv : List (Slot CString)
  argc : Nat
  argv_size : Nat
  pid : Int
  deriving DecidableEq, Repr

/-- The `while (1)` loop of `parse_command` (lines 146-167); `tok_end` is the scan position. -/
def parse_command_loop : Nat → CString → Command → Except Fault Command
  | 0, _, _ => .error Fault.out_of_fuel
  | fuel + 1, tok_end, command_struct =>
    let tok_start := skip_space tok_end
    if deref tok_start == NUL then .ok command_struct
    else
      let tok_end := skip_token tok_start
      match append_entry command_struct.argv command_struct.argc command_struct.argv_size
          (strncpy tok_start (tok_start.length - tok_end.length)) with
      | .error e => .error e
      | .ok (argv, argc, argv_size) =>
        parse_command_loop fuel tok_end
          { command_struct with argv := argv, argc := argc, argv_size := argv_size }

/-- The function `parse_command` (lines 116-168).  The result `none` is the `NULL` return. -/
def parse_command (command_string : CString) : Except Fault (Option Command) :=
  let command_struct : Command :=
    { cmd := [], argv := calloc (1 + 1), argc := 0, argv_size := 1, pid := 0 }
  let tok_start := skip_space command_string
  if deref tok_start == NUL then .ok none
  else
    let tok_end := skip_token tok_start
    let command_struct :=
      { command_struct with cmd := strncpy tok_start (tok_start.length - tok_end.length) }
    match parse_command_loop (command_string.length + 1) command_string command_struct with
    | .error e => .error e
    | .ok c => .ok (some c)


/-! ## `parse_buffer` -/

/-- The delimiter string passed to `strtok` by `parse_buffer`. -/
def DELIM : CString := [';', '\n']

/-- The function `strtok` of `<string.h>`.  `str` is the first argument (`none` for `NULL`),
`save` the position remembered by the previous call.  The result is the token (`none` for
`NULL`) and the position remembered for the next call. -/
def strtok (str : Option CString) (delim : CString) (save : CString) :
    Option CString × CString :=
  let s := match str with
    | some b => b
    | none => save
  let s := s.dropWhile (fun c => delim.elem c)
  if deref s == NUL then (none, s)
  else
    let tok_end := s.dropWhile (fun c => !delim.elem c && c != NUL)
    let token := s.take (s.length - tok_end.length)
    if deref tok_end == NUL then (some token, tok_end)
    else (some token, tok_end.tail)

/-- The `while (p != NULL)` loop of `parse_buffer` (lines 98-112). -/
def parse_buffer_loop : Nat → Option CString → CString → List (Slot Command) → Nat → Nat →
    Except Fault (List (Slot Command))
  | _, none, _, command_vec, _, _ => .ok command_vec
  | 0, some _, _, _, _, _ => .error Fault.out_of_fuel
  | fuel + 1, some p, save, command_vec, command_vec_size, command_vec_cap =>
    match parse_command p with
    | .error e => .error e
    | .ok none =>
      let r := strtok none DELIM save
      parse_buffer_loop fuel r.1 r.2 command_vec command_vec_size command_vec_cap
    | .ok (some command) =>
      match append_entry command_vec command_vec_size command_vec_cap command with
      | .error e => .error e
      | .ok (command_vec, command_vec_size, command_vec_cap) =>
        let r := strtok none DELIM save
        parse_buffer_loop fuel r.1 r.2 command_vec command_vec_size command_vec_cap

/-- The function `parse_buffer` (lines 86-114). -/
def parse_buffer (buffer : CString) : Except Fault (List (Slot Command)) :=
  let command_vec_size := 0
  let command_vec_cap := 1
  let command_vec : List (Slot Command) := calloc (command_vec_cap + 1)
  let r := strtok (some buffer) DELIM []
  parse_buffer_loop (buffer.length + 1) r.1 r.2 command_vec command_vec_size command_vec_cap

/-! ## `execute` -/

/-- What the environment answers to the system calls of one process.  `fork n` is the value
returned by its `n`-th call of `fork` (numbered from 0), `wait n` the value left in `status`
by its `n`-th call of `wait`, and `execvp c` tells whether replacing the image by the program
of command `c` succeeds. -/
structure Sys where
  fork : Nat → Int
  wait : Nat → Int
  execvp : Command → Bool

inductive Event where
  | fork (command : Command) (pid : Int)
  | execvp (cmd : CString) (argv : List (Slot CString))
  | stderr (msg : String)
  | wait (status : Int)
  | prompt
  deriving DecidableEq, Repr

/-- How a piece of code leaves: it returns a value, the process exits with a status, or the
process image has been replaced by `execvp`. -/
inductive Outcome where
  | returned (value : Int)
  | exited (status : Int)
  | replaced
  deriving DecidableEq, Repr

/-- The state of the process: number of `fork` and `wait` calls made so far, and the system
calls and output made so far, oldest first. -/
structure Proc where
  nfork : Nat
  nwait : Nat
  log : List Event
  deriving DecidableEq, Repr

def EXIT_SUCCESS : Int := 0

def EXIT_FAILURE : Int := 1

/-- The bit pattern of a 32-bit `int`. -/
def int_bits (x : Int) : Nat := (x % 4294967296).toNat

/-- The 32-bit `int` with a given bit pattern. -/
def int_of_bits (n : Nat) : Int :=
  if n < 2147483648 then (n : Int) else (n : Int) - 4294967296

/-- The operator `|` on 32-bit `int`. -/
def int_or (a b : Int) : Int := int_of_bits (int_bits a ||| int_bits b)

/-- The `for` loop of `execute` (lines 175-194), started at slot `i` of the block, of which the
first argument is the part from slot `i` on.  The result is the block with the `pid` fields
filled in, the process state, and either the outcome that ended `execute` inside the loop or
the value of `i` at the sentinel.  The counter `i` is an `int`; a line of `BUFFER_SIZE` bytes
holds fewer than 2^31 commands. -/
def execute_for (sys : Sys) : List (Slot Command) → Nat → Proc →
    Except Fault (List (Slot Command) × Proc × Sum Outcome Nat)
  | [], _, _ => .error Fault.out_of_bounds
  | Slot.garbage :: _, _, _ => .error Fault.out_of_bounds
  | Slot.null :: rest, i, st => .ok (Slot.null :: rest, st, Sum.inr i)
  | Slot.ptr command :: rest, i, st =>
    let pid := sys.fork st.nfork
    let st := { st with nfork := st.nfork + 1, log := st.log ++ [Event.fork command pid] }
    if pid == 0 then
      let st := { st with log := st.log ++ [Event.execvp command.cmd command.argv] }
      if sys.execvp command then .ok (Slot.ptr command :: rest, st, Sum.inl Outcome.replaced)
      else .ok (Slot.ptr command :: rest, st, Sum.inl (Outcome.exited EXIT_SUCCESS))
    else if pid == -1 then
      let st := { st with log := st.log ++ [Event.stderr "Error: fork failed\n"] }
      .ok (Slot.ptr command :: rest, st, Sum.inl (Outcome.returned (-1)))
    else
      match execute_for sys rest (i + 1) st with
      | .error e => .error e
      | .ok (rest1, st1, r) => .ok (Slot.ptr { command with pid := pid } :: rest1, st1, r)

/-- The loop `while (i-- > 0)` of `execute` (lines 196-201). -/
def execute_while (sys : Sys) : Nat → Int → Proc → Int × Proc
  | 0, ret_value, st => (ret_value, st)
  | i + 1, ret_value, st =>
    let status := sys.wait st.nwait
    let st := { st with nwait := st.nwait + 1, log := st.log ++ [Event.wait status] }
    execute_while sys i (int_or ret_value status) st

/-- The function `execute` (lines 171-203). -/
def execute (sys : Sys) (command_vec : List (Slot Command)) (st : Proc) :
    Except Fault (Outcome × List (Slot Command) × Proc) :=
  match execute_for sys command_vec 0 st with
  | .error e => .error e
  | .ok (command_vec, st, Sum.inl o) => .ok (o, command_vec, st)
  | .ok (command_vec, st, Sum.inr i) =>
    let r := execute_while sys i 0 st
    .ok (Outcome.returned r.1, command_vec, r.2)

/-! ## `main` -/

inductive MODE where
  | INTERACTIVE
  | BATCH
  deriving DecidableEq, Repr

/-- The function `strcmp` of `<string.h>`. -/
def strcmp : CString → CString → Int
  | [], [] => 0
  | [], b :: _ => 0 - (b.toNat : Int)
  | a :: _, [] => (a.toNat : Int)
  | a :: as, b :: bs =>
    if a != b then (a.toNat : Int) - (b.toNat : Int)
    else if a == NUL then 0
    else strcmp as bs

/-- The termination keyword, with its newline. -/
def QUIT : CString := ['q', 'u', 'i', 't', '\n']

/-- An open input stream: the lines the successive calls of `get_input` (lines 78-84) will
deliver, after which `get_input` returns `NULL`. -/
abbrev FILE := List CString

/-- The prompt of interactive mode (lines 60-63). -/
def show_prompt (mode : MODE) (st : Proc) : Proc :=
  if mode == MODE.INTERACTIVE then { st with log := st.log ++ [Event.prompt] } else st

/-- The session loop `while (1)` of `main` with the `exit` that follows it (lines 56-75).
Releasing the buffer and the command list has no effect in this model. -/
def main_loop (sys : Sys) (mode : MODE) : FILE → Proc → Except Fault (Outcome × Proc)
  | [], st => .ok (Outcome.exited EXIT_SUCCESS, show_prompt mode st)
  | buffer :: input, st =>
    let st := show_prompt mode st
    if strcmp buffer QUIT == 0 then .ok (Outcome.exited EXIT_SUCCESS, st)
    else
      match parse_buffer buffer with
      | .error e => .error e
      | .ok cmd_vec =>
        match execute sys cmd_vec st with
        | .error e => .error e
        | .ok (Outcome.returned _, _, st) => main_loop sys mode input st
        | .ok (o, _, st) => .ok (o, st)

/-- The function `main` (lines 36-76).  `stdin` is the standard input, `fopen_result` what
`fopen(argv[1], "r")` returns. -/
def main (sys : Sys) (argc : Nat) (stdin : FILE) (fopen_result : Option FILE) (st : Proc) :
    Except Fault (Outcome × Proc) :=
  let mode := if argc == 1 then MODE.INTERACTIVE else MODE.BATCH
  let input := if mode == MODE.INTERACTIVE then some stdin else fopen_result
  match input with
  | none =>
    .ok (Outcome.exited EXIT_FAILURE,
      { st with log := st.log ++ [Event.stderr "Opening input stream failed.\n"] })
  | some input => main_loop sys mode input st

/-! ## Specification-side notions -/

/-- The non-empty pieces obtained by cutting a string at every character satisfying `p`:
the maximal runs of characters that do not satisfy `p`, from left to right. -/
def fields (p : Char → Bool) (s : CString) : List CString :=
  (s.splitOnP p).filter (fun t => !t.isEmpty)

/-- A list represents a C string when it does not contain the terminator. -/
def NulFree (s : CString) : Prop := ∀ c ∈ s, c ≠ NUL

/-- The statement separators: `;` and newline. -/
def is_sep (c : Char) : Bool := c == ';' || c == '\n'

/-- The command `parse_command` returns for a segment, if any. -/
def command_of (t : CString) : Option Command :=
  match parse_command t with
  | .ok r => r
  | .error _ => none

/-- The `fork` events of spawning the commands `cs` in order, the first by call number `n`. -/
def fork_events (sys : Sys) : Nat → List Command → List Event
  | _, [] => []
  | n, c :: cs => Event.fork c (sys.fork n) :: fork_events sys (n + 1) cs

/-- The statuses reported by `count` successive calls of `wait`, the first being call number
`n`. -/
def wait_statuses (sys : Sys) : Nat → Nat → List Int
  | _, 0 => []
  | n, count + 1 => sys.wait n :: wait_statuses sys (n + 1) count

/-- Parse and execute each of the given lines in order, showing the prompt before each. -/
def run_lines (sys : Sys) (mode : MODE) : List CString → Proc → Except Fault Proc
  | [], st => .ok st
  | l :: ls, st =>
    match parse_buffer l with
    | .error e => .error e
    | .ok vec =>
      match execute sys vec (show_prompt mode st) with
      | .error e => .error e
      | .ok (_, _, st1) => run_lines sys mode ls st1

/-- Shape of a pointer block after the entries `xs` have been appended. -/
def VecInv {α : Type} (vec : List (Slot α)) (len cap : Nat) (xs : List α) : Prop :=
  len = xs.length ∧ len < cap ∧ vec.length = cap + 1 ∧
    ∃ tail, vec = xs.map Slot.ptr ++ Slot.null :: tail

/-- Iterated `append_entry`. -/
def append_all {α : Type} (st : List (Slot α) × Nat × Nat) :
    List α → Except Fault (List (Slot α) × Nat × Nat)
  | [] => .ok st
  | x :: xs =>
    match append_entry st.1 st.2.1 st.2.2 x with
    | .error e => .error e
    | .ok st1 => append_all st1 xs

/-! ## Lemmas on lists -/

theorem splitOnP_shape (p : Char → Bool) (s : CString) :
    s.splitOnP p = s.takeWhile (fun c => !p c) ::
      (match s.dropWhile (fun c => !p c) with
       | [] => []
       | _ :: ds => ds.splitOnP p) := by
  induction s with
  | nil => simp
  | cons c cs ih =>
    rw [List.splitOnP_cons]
    by_cases h : p c = true
    · simp [h]
    · simp only [h, Bool.false_eq_true, if_false]
      rw [ih]
      simp [List.takeWhile_cons, List.dropWhile_cons, h]

theorem fields_nil (p : Char → Bool) : fields p [] = [] := by
  simp [fields]

theorem fields_cons_sep (p : Char → Bool) (c : Char) (cs : CString) (h : p c = true) :
    fields p (c :: cs) = fields p cs := by
  simp [fields, List.splitOnP_cons, h]

theorem fields_dropWhile (p : Char → Bool) (s : CString) :
    fields p (s.dropWhile p) = fields p s := by
  induction s with
  | nil => simp
  | cons c cs ih =>
    by_cases h : p c = true
    · rw [List.dropWhile_cons_of_pos h, ih, fields_cons_sep p c cs h]
    · rw [List.dropWhile_cons_of_neg h]

theorem fields_cons_tok (p : Char → Bool) (c : Char) (cs : CString) (h : p c = false) :
    fields p (c :: cs) = (c :: cs).takeWhile (fun c => !p c) ::
      fields p ((c :: cs).dropWhile (fun c => !p c)) := by
  have hs := splitOnP_shape p (c :: cs)
  unfold fields
  rw [hs]
  have hne : ((c :: cs).takeWhile (fun c => !p c)).isEmpty = false := by
    simp [List.takeWhile_cons, h]
  rw [List.filter_cons_of_pos (by simp [hne])]
  congr 1
  cases hd : (c :: cs).dropWhile (fun c => !p c) with
  | nil => simp
  | cons d ds =>
    have hpd : p d = true := by
      have := List.head_dropWhile_not (fun c => !p c) (c :: cs) (by rw [hd]; simp)
      simpa [hd] using this
    simp [List.splitOnP_cons, hpd]

theorem fields_eq_nil_iff (p : Char → Bool) (s : CString) :
    fields p s = [] ↔ ∀ c ∈ s, p c = true := by
  induction s with
  | nil => simp [fields_nil]
  | cons c cs ih =>
    by_cases h : p c = true
    · rw [fields_cons_sep p c cs h, ih]; simp [h]
    · have h2 : p c = false := by simpa using h
      rw [fields_cons_tok p c cs h2]; simp [h2]

theorem take_length_append (a b : CString) : (a ++ b).take a.length = a := by
  simp

theorem take_sub_dropWhile (q : Char → Bool) (t : CString) :
    t.take (t.length - (t.dropWhile q).length) = t.takeWhile q := by
  have h := List.takeWhile_append_dropWhile q t
  have hl : (t.takeWhile q).length + (t.dropWhile q).length = t.length := by
    rw [← List.length_append, h]
  have e : t.length - (t.dropWhile q).length = (t.takeWhile q).length := by omega
  have key := take_length_append (t.takeWhile q) (t.dropWhile q)
  rw [h] at key
  rw [e, key]

/-! ## Lemmas on the scanning loops -/

theorem isspace_NUL : isspace NUL = false := by decide

theorem skip_space_eq (s : CString) : skip_space s = s.dropWhile isspace := by
  induction s with
  | nil => rfl
  | cons c cs ih =>
    by_cases h : isspace c = true
    · have hc : c ≠ NUL := by
        intro e
        rw [e, isspace_NUL] at h
        exact Bool.false_ne_true h
      simp [skip_space, h, hc, ih]
    · simp [skip_space, h]

theorem NulFree.tail {c : Char} {cs : CString} (h : NulFree (c :: cs)) : NulFree cs :=
  fun d hd => h d (List.mem_cons_of_mem c hd)

theorem NulFree.dropWhile {s : CString} (h : NulFree s) (p : Char → Bool) :
    NulFree (s.dropWhile p) :=
  fun d hd => h d ((List.dropWhile_sublist p).subset hd)

theorem skip_token_eq (s : CString) (hs : NulFree s) :
    skip_token s = s.dropWhile (fun c => !isspace c) := by
  induction s with
  | nil => rfl
  | cons c cs ih =>
    have hc : c ≠ NUL := hs c (List.mem_cons_self c cs)
    by_cases h : isspace c = true
    · simp [skip_token, h]
    · simp [skip_token, h, hc, ih hs.tail]

theorem strncpy_token (t : CString) (ht : NulFree t) :
    strncpy t (t.length - (skip_token t).length) = t.takeWhile (fun c => !isspace c) := by
  rw [skip_token_eq t ht, strncpy, take_sub_dropWhile]
  rw [List.takeWhile_eq_self_iff]
  intro c hc
  have : c ≠ NUL := ht c ((List.takeWhile_sublist _).subset hc)
  simpa using this

/-! ## Lemmas on pointer blocks -/

theorem set_at_length {α : Type} (l r : List α) (a b : α) :
    (l ++ a :: r).set l.length b = l ++ b :: r := by
  induction l with
  | nil => rfl
  | cons x l ih => simp [ih]

theorem read_vec_inv {α : Type} (xs : List α) (tail : List (Slot α)) :
    read_vec (xs.map Slot.ptr ++ Slot.null :: tail) = .ok xs := by
  induction xs with
  | nil => rfl
  | cons x xs ih => simp [read_vec, ih]

theorem VecInv.read {α : Type} {vec : List (Slot α)} {len cap : Nat} {xs : List α}
    (h : VecInv vec len cap xs) : read_vec vec = .ok xs := by
  obtain ⟨_, _, _, tail, hv⟩ := h
  rw [hv, read_vec_inv]

theorem VecInv.init {α : Type} : VecInv (calloc (1 + 1) : List (Slot α)) 0 1 [] := by
  refine ⟨rfl, by decide, rfl, [Slot.null], rfl⟩

theorem append_entry_spec {α : Type} (vec : List (Slot α)) (len cap : Nat) (xs : List α) (x : α)
    (h : VecInv vec len cap xs) :
    ∃ vec1 cap1, append_entry vec len cap x = .ok (vec1, len + 1, cap1) ∧
      VecInv vec1 (len + 1) cap1 (xs ++ [x]) ∧
      cap1 = (if len + 1 = cap then cap * 2 else cap) ∧
      ∀ i, i < len → vec1[i]? = vec[i]? := by
  obtain ⟨hlen, hcap, hvl, tail, hv⟩ := h
  have htl : tail.length = cap - len := by
    have := congrArg List.length hv
    simp at this
    omega
  cases tail with
  | nil => simp at htl; omega
  | cons t tail1 =>
    have hl0 : len = (xs.map (Slot.ptr : α → Slot α)).length := by simp [hlen]
    have s1 : store vec len (Slot.ptr x) =
        .ok (xs.map Slot.ptr ++ Slot.ptr x :: t :: tail1) := by
      unfold store
      rw [if_pos (by omega), hv]
      congr 1
      rw [hl0]
      exact set_at_length _ _ _ _
    have hl1 : len + 1 = (xs.map (Slot.ptr : α → Slot α) ++ [Slot.ptr x]).length := by
      simp [hlen]
    have e1 : xs.map Slot.ptr ++ Slot.ptr x :: t :: tail1 =
        (xs.map (Slot.ptr : α → Slot α) ++ [Slot.ptr x]) ++ t :: tail1 := by simp
    have e2 : (xs.map (Slot.ptr : α → Slot α) ++ [Slot.ptr x]) ++ Slot.null :: tail1 =
        (xs ++ [x]).map Slot.ptr ++ Slot.null :: tail1 := by simp
    have hlen2 : ((xs ++ [x]).map (Slot.ptr : α → Slot α) ++ Slot.null :: tail1).length =
        cap + 1 := by
      simp at htl ⊢
      omega
    have s2 : store (xs.map Slot.ptr ++ Slot.ptr x :: t :: tail1) (len + 1) Slot.null =
        .ok ((xs ++ [x]).map Slot.ptr ++ Slot.null :: tail1) := by
      unfold store
      rw [if_pos (by simp at htl ⊢; omega)]
      congr 1
      rw [e1, hl1, set_at_length, e2]
    have hget : ∀ (r1 r2 : List (Slot α)) (i : Nat), i < len →
        ((xs ++ [x]).map Slot.ptr ++ r1)[i]? = (xs.map Slot.ptr ++ r2)[i]? := by
      intro r1 r2 i hi
      rw [List.map_append, List.append_assoc,
        List.getElem?_append_left (by simp; omega),
        List.getElem?_append_left (by simp; omega)]
    by_cases hc : len + 1 = cap
    · refine ⟨realloc ((xs ++ [x]).map Slot.ptr ++ Slot.null :: tail1) (cap * 2 + 1), cap * 2,
        ?_, ?_, by simp [hc], ?_⟩
      · unfold append_entry
        simp only [s1, s2]
        simp [hc]
      · have hr : realloc ((xs ++ [x]).map Slot.ptr ++ Slot.null :: tail1) (cap * 2 + 1) =
            (xs ++ [x]).map Slot.ptr ++
              Slot.null :: (tail1 ++ List.replicate cap Slot.garbage) := by
          unfold realloc
          rw [hlen2, List.take_of_length_le (by rw [hlen2]; omega)]
          have : cap * 2 + 1 - (cap + 1) = cap := by omega
          rw [this]
          simp
        refine ⟨by simp [hlen], by omega, ?_, _, hr⟩
        rw [hr]
        simp at htl hlen2 ⊢
        omega
      · intro i hi
        unfold realloc
        rw [List.take_of_length_le (by rw [hlen2]; omega), List.append_assoc, hv]
        exact hget _ _ i hi
    · refine ⟨(xs ++ [x]).map Slot.ptr ++ Slot.null :: tail1, cap, ?_, ?_, by simp [hc], ?_⟩
      · unfold append_entry
        simp only [s1, s2]
        simp [hc]
      · exact ⟨by simp [hlen], by omega, hlen2, _, rfl⟩
      · intro i hi
        rw [hv]
        exact hget _ _ i hi

theorem append_all_spec {α : Type} (ys xs : List α) (vec : List (Slot α)) (len cap : Nat)
    (h : VecInv vec len cap xs) :
    ∃ vec1 cap1, append_all (vec, len, cap) ys = .ok (vec1, len + ys.length, cap1) ∧
      VecInv vec1 (len + ys.length) cap1 (xs ++ ys) := by
  induction ys generalizing xs vec len cap with
  | nil => exact ⟨vec, cap, rfl, by simpa using h⟩
  | cons y ys ih =>
    obtain ⟨v1, c1, he, hi, _, _⟩ := append_entry_spec vec len cap xs y h
    obtain ⟨v2, c2, ha, hi2⟩ := ih (xs ++ [y]) v1 (len + 1) c1 hi
    refine ⟨v2, c2, ?_, ?_⟩
    · simp only [append_all, he]
      rw [ha]
      simp only [List.length_cons]
      congr 3
      omega
    · have e : len + (y :: ys).length = len + 1 + ys.length := by simp; omega
      rw [e]
      simpa using hi2

/-! ## Lemmas on `parse_command` -/

theorem parse_command_loop_spec (fuel : Nat) (s : CString) (c : Command) (xs : List CString)
    (hs : NulFree s) (hf : s.length < fuel) (h : VecInv c.argv c.argc c.argv_size xs) :
    ∃ c1, parse_command_loop fuel s c = .ok c1 ∧ c1.cmd = c.cmd ∧ c1.pid = c.pid ∧
      VecInv c1.argv c1.argc c1.argv_size (xs ++ fields isspace s) := by
  induction fuel generalizing s c xs with
  | zero => omega
  | succ fuel ih =>
    unfold parse_command_loop
    simp only [skip_space_eq]
    cases hd : s.dropWhile isspace with
    | nil =>
      refine ⟨c, by simp [deref], rfl, rfl, ?_⟩
      rw [← fields_dropWhile, hd, fields_nil]
      simpa using h
    | cons d ds =>
      have hnf : NulFree (d :: ds) := hd ▸ hs.dropWhile isspace
      have hdn : d ≠ NUL := hnf d (List.mem_cons_self d ds)
      have hsp : isspace d = false := by
        have := List.head_dropWhile_not isspace s (by rw [hd]; simp)
        simpa [hd] using this
      have hlen : (d :: ds).length ≤ s.length := by
        rw [← hd]
        exact (List.dropWhile_sublist isspace).length_le
      have hlt : (skip_token (d :: ds)).length < fuel := by
        have h1 : skip_token (d :: ds) = skip_token ds := by simp [skip_token, hsp, hdn]
        have h2 : (skip_token ds).length ≤ ds.length := by
          rw [skip_token_eq ds hnf.tail]
          exact (List.dropWhile_sublist _).length_le
        rw [h1]
        simp at hlen
        omega
      have hnt : NulFree (skip_token (d :: ds)) := by
        rw [skip_token_eq _ hnf]
        exact hnf.dropWhile _
      obtain ⟨v1, c1, he, hi, _, _⟩ := append_entry_spec c.argv c.argc c.argv_size xs
        (strncpy (d :: ds) ((d :: ds).length - (skip_token (d :: ds)).length)) h
      obtain ⟨c2, hr, hcmd, hpid, hinv⟩ := ih (skip_token (d :: ds))
        { c with argv := v1, argc := c.argc + 1, argv_size := c1 } _ hnt hlt hi
      refine ⟨c2, ?_, hcmd, hpid, ?_⟩
      · simp only [deref, List.headD_cons, beq_iff_eq, hdn, if_false, he]
        exact hr
      · rw [← fields_dropWhile isspace s, hd, fields_cons_tok isspace d ds hsp,
          ← strncpy_token _ hnf, ← skip_token_eq _ hnf]
        simpa using hinv

theorem parse_command_loop_chain (fuel : Nat) (s : CString) (c c1 : Command)
    (h : parse_command_loop fuel s c = .ok c1) :
    ∃ toks, append_all (c.argv, c.argc, c.argv_size) toks =
      .ok (c1.argv, c1.argc, c1.argv_size) := by
  induction fuel generalizing s c with
  | zero => simp [parse_command_loop] at h
  | succ fuel ih =>
    unfold parse_command_loop at h
    simp only at h
    split at h
    · cases h
      exact ⟨[], rfl⟩
    · split at h
      · cases h
      · rename_i argv argc argv_size he
        obtain ⟨toks, ht⟩ := ih _ _ h
        refine ⟨strncpy (skip_space s)
          ((skip_space s).length - (skip_token (skip_space s)).length) :: toks, ?_⟩
        unfold append_all
        rw [he]
        exact ht

theorem parse_command_blank (s : CString) (h : ∀ c ∈ s, isspace c = true) :
    parse_command s = .ok none := by
  have hd : s.dropWhile isspace = [] := by
    rw [List.dropWhile_eq_nil_iff]
    exact h
  simp [parse_command, skip_space_eq, hd, deref]

theorem parse_command_some (s : CString) (hs : NulFree s) (h : ¬ ∀ c ∈ s, isspace c = true) :
    ∃ c rest, parse_command s = .ok (some c) ∧ fields isspace s = c.cmd :: rest ∧
      c.pid = 0 ∧ VecInv c.argv c.argc c.argv_size (fields isspace s) := by
  cases hd : s.dropWhile isspace with
  | nil =>
    rw [List.dropWhile_eq_nil_iff] at hd
    exact absurd hd h
  | cons d ds =>
    have hnf : NulFree (d :: ds) := hd ▸ hs.dropWhile isspace
    have hdn : d ≠ NUL := hnf d (List.mem_cons_self d ds)
    have hsp : isspace d = false := by
      have := List.head_dropWhile_not isspace s (by rw [hd]; simp)
      simpa [hd] using this
    obtain ⟨c1, hr, hcmd, hpid, hinv⟩ := parse_command_loop_spec (s.length + 1) s
      { cmd := strncpy (d :: ds) ((d :: ds).length - (skip_token (d :: ds)).length),
        argv := calloc (1 + 1), argc := 0, argv_size := 1, pid := 0 } []
      hs (Nat.lt_succ_self _) VecInv.init
    refine ⟨c1, fields isspace ((d :: ds).dropWhile (fun c => !isspace c)), ?_, ?_, hpid, ?_⟩
    · simp only [parse_command, skip_space_eq, hd, deref, List.headD_cons, beq_iff_eq, hdn,
        if_false, hr]
    · rw [hcmd, ← fields_dropWhile isspace s, hd, fields_cons_tok isspace d ds hsp,
        strncpy_token _ hnf]
    · simpa using hinv

/-! ## Lemmas on `strtok` and `parse_buffer` -/

theorem elem_DELIM (c : Char) : DELIM.elem c = is_sep c := by
  unfold DELIM is_sep
  simp only [List.elem]
  cases (c == ';') <;> cases (c == '\n') <;> rfl

theorem dropWhile_and_ne_NUL (q : Char → Bool) (s : CString) (hs : NulFree s) :
    s.dropWhile (fun c => q c && c != NUL) = s.dropWhile q := by
  induction s with
  | nil => rfl
  | cons c cs ih =>
    have hc : c ≠ NUL := hs c (List.mem_cons_self c cs)
    simp [List.dropWhile_cons, hc, ih hs.tail]

theorem fields_dropWhile_not_tail (p : Char → Bool) (l : CString) :
    fields p (l.dropWhile (fun c => !p c)).tail = fields p (l.dropWhile (fun c => !p c)) := by
  cases hd : l.dropWhile (fun c => !p c) with
  | nil => rfl
  | cons e es =>
    have hpe : p e = true := by
      have := List.head_dropWhile_not (fun c => !p c) l (by rw [hd]; simp)
      simpa [hd] using this
    rw [fields_cons_sep p e es hpe]
    rfl

theorem strtok_eq (s : CString) (hs : NulFree s) :
    strtok none DELIM s =
      match s.dropWhile is_sep with
      | [] => (none, [])
      | d :: ds => (some ((d :: ds).takeWhile (fun c => !is_sep c)),
          ((d :: ds).dropWhile (fun c => !is_sep c)).tail) := by
  unfold strtok
  simp only [elem_DELIM]
  have hfun : (fun c => is_sep c) = is_sep := rfl
  cases hd : s.dropWhile is_sep with
  | nil => simp [hfun, hd, deref]
  | cons d ds =>
    have hnf : NulFree (d :: ds) := hd ▸ hs.dropWhile is_sep
    have hdn : d ≠ NUL := hnf d (List.mem_cons_self d ds)
    simp only [hfun, hd, deref, List.headD_cons, beq_iff_eq, hdn, if_false]
    rw [dropWhile_and_ne_NUL (fun c => !is_sep c) (d :: ds) hnf, take_sub_dropWhile]
    cases he : (d :: ds).dropWhile (fun c => !is_sep c) with
    | nil => simp
    | cons e es =>
      have hen : e ≠ NUL := by
        have : NulFree (e :: es) := he ▸ hnf.dropWhile _
        exact this e (List.mem_cons_self e es)
      simp [hen]

theorem parse_command_total (s : CString) (hs : NulFree s) :
    parse_command s = .ok (command_of s) := by
  by_cases h : ∀ c ∈ s, isspace c = true
  · simp [command_of, parse_command_blank s h]
  · obtain ⟨c, rest, hc, _⟩ := parse_command_some s hs h
    simp [command_of, hc]

theorem parse_buffer_loop_spec (fuel : Nat) (rest : CString) (vec : List (Slot Command))
    (size cap : Nat) (xs : List Command) (hs : NulFree rest) (hf : rest.length ≤ fuel)
    (h : VecInv vec size cap xs) :
    ∃ vec1 size1 cap1,
      parse_buffer_loop fuel (strtok none DELIM rest).1 (strtok none DELIM rest).2 vec size cap
        = .ok vec1 ∧
      VecInv vec1 size1 cap1 (xs ++ (fields is_sep rest).filterMap command_of) := by
  induction fuel generalizing rest vec size cap xs with
  | zero =>
    have hr : rest = [] := List.length_eq_zero.mp (Nat.le_zero.mp hf)
    subst hr
    refine ⟨vec, size, cap, ?_, ?_⟩
    · rw [strtok_eq [] hs]
      simp [parse_buffer_loop]
    · simpa [fields_nil] using h
  | succ fuel ih =>
    rw [strtok_eq rest hs]
    cases hd : rest.dropWhile is_sep with
    | nil =>
      refine ⟨vec, size, cap, ?_, ?_⟩
      · simp [parse_buffer_loop]
      · rw [← fields_dropWhile is_sep rest, hd, fields_nil]
        simpa using h
    | cons d ds =>
      have hnf : NulFree (d :: ds) := hd ▸ hs.dropWhile is_sep
      have hsp : is_sep d = false := by
        have := List.head_dropWhile_not is_sep rest (by rw [hd]; simp)
        simpa [hd] using this
      have hlen : (d :: ds).length ≤ rest.length := by
        rw [← hd]
        exact (List.dropWhile_sublist is_sep).length_le
      have hnt : NulFree ((d :: ds).takeWhile (fun c => !is_sep c)) :=
        fun c hc => hnf c ((List.takeWhile_sublist _).subset hc)
      have hnr : NulFree ((d :: ds).dropWhile (fun c => !is_sep c)).tail :=
        fun c hc => hnf c ((List.dropWhile_sublist _).subset (List.mem_of_mem_tail hc))
      have hlr : ((d :: ds).dropWhile (fun c => !is_sep c)).tail.length ≤ fuel := by
        have h1 : (d :: ds).dropWhile (fun c => !is_sep c) =
            ds.dropWhile (fun c => !is_sep c) := by simp [List.dropWhile_cons, hsp]
        have h2 : (ds.dropWhile (fun c => !is_sep c)).length ≤ ds.length :=
          (List.dropWhile_sublist _).length_le
        rw [h1, List.length_tail]
        simp at hlen
        omega
      have hf2 : fields is_sep rest = (d :: ds).takeWhile (fun c => !is_sep c) ::
          fields is_sep ((d :: ds).dropWhile (fun c => !is_sep c)).tail := by
        rw [← fields_dropWhile is_sep rest, hd, fields_cons_tok is_sep d ds hsp,
          fields_dropWhile_not_tail]
      simp only
      unfold parse_buffer_loop
      rw [parse_command_total _ hnt, hf2, List.filterMap_cons]
      cases hc : command_of ((d :: ds).takeWhile (fun c => !is_sep c)) with
      | none =>
        simp only
        exact ih _ vec size cap xs hnr hlr h
      | some command =>
        obtain ⟨v1, c1, he, hi, _, _⟩ := append_entry_spec vec size cap xs command h
        obtain ⟨v2, s2, c2, hr, hi2⟩ := ih _ v1 (size + 1) c1 (xs ++ [command]) hnr hlr hi
        refine ⟨v2, s2, c2, ?_, by simpa using hi2⟩
        simp only [he]
        exact hr

theorem parse_buffer_spec (buffer : CString) (hs : NulFree buffer) :
    ∃ vec size cap, parse_buffer buffer = .ok vec ∧
      VecInv vec size cap ((fields is_sep buffer).filterMap command_of) := by
  obtain ⟨v, sz, cp, hr, hi⟩ := parse_buffer_loop_spec (buffer.length + 1) buffer
    (calloc (1 + 1)) 0 1 [] hs (Nat.le_succ _) VecInv.init
  refine ⟨v, sz, cp, ?_, by simpa using hi⟩
  unfold parse_buffer
  exact hr

/-! ## Lemmas on `execute` -/

theorem read_vec_ok {α : Type} (vec : List (Slot α)) (xs : List α)
    (h : read_vec vec = .ok xs) : ∃ tail, vec = xs.map Slot.ptr ++ Slot.null :: tail := by
  induction vec generalizing xs with
  | nil => simp [read_vec] at h
  | cons sl rest ih =>
    cases sl with
    | garbage => simp [read_vec] at h
    | null =>
      simp only [read_vec] at h
      cases h
      exact ⟨rest, rfl⟩
    | ptr a =>
      simp only [read_vec] at h
      cases hr : read_vec rest with
      | error e => simp [hr] at h
      | ok l =>
        simp only [hr] at h
        cases h
        obtain ⟨tail, ht⟩ := ih l hr
        exact ⟨tail, by simp [ht]⟩

theorem execute_while_eq (sys : Sys) (i : Nat) (rv : Int) (st : Proc) :
    execute_while sys i rv st =
      ((wait_statuses sys st.nwait i).foldl int_or rv,
        { nfork := st.nfork, nwait := st.nwait + i,
          log := st.log ++ (wait_statuses sys st.nwait i).map Event.wait }) := by
  induction i generalizing rv st with
  | zero => simp [execute_while, wait_statuses]
  | succ i ih =>
    simp only [execute_while, wait_statuses, ih, List.foldl_cons, List.map_cons]
    simp
    omega

theorem execute_for_all (sys : Sys) (cmds : List Command) (tail : List (Slot Command))
    (i : Nat) (st : Proc) (hf : ∀ k, k < cmds.length → 0 < sys.fork (st.nfork + k)) :
    ∃ vec1, execute_for sys (cmds.map Slot.ptr ++ Slot.null :: tail) i st =
      .ok (vec1, { nfork := st.nfork + cmds.length, nwait := st.nwait,
                   log := st.log ++ fork_events sys st.nfork cmds },
           Sum.inr (i + cmds.length)) := by
  induction cmds generalizing i st with
  | nil => exact ⟨Slot.null :: tail, by simp [execute_for, fork_events]⟩
  | cons c cs ih =>
    have h0 : 0 < sys.fork st.nfork := by simpa using hf 0 (by simp)
    have hne0 : sys.fork st.nfork ≠ 0 := by omega
    have hne1 : sys.fork st.nfork ≠ -1 := by omega
    obtain ⟨v1, hv1⟩ := ih (i + 1)
      { st with nfork := st.nfork + 1, log := st.log ++ [Event.fork c (sys.fork st.nfork)] }
      (fun k hk => by
        have := hf (k + 1) (by simp; omega)
        simpa [Nat.add_assoc, Nat.add_comm 1 k] using this)
    refine ⟨Slot.ptr { c with pid := sys.fork st.nfork } :: v1, ?_⟩
    have e : (c :: cs).map Slot.ptr ++ Slot.null :: tail =
        Slot.ptr c :: (cs.map Slot.ptr ++ Slot.null :: tail) := rfl
    rw [e]
    simp only [execute_for, beq_iff_eq, hne0, hne1, if_false, fork_events, List.length_cons]
    rw [hv1]
    simp [Nat.add_assoc, Nat.add_comm 1]

theorem execute_for_fail (sys : Sys) (cmds : List Command) (tail : List (Slot Command))
    (i k : Nat) (st : Proc) (hk : k < cmds.length)
    (hs : ∀ j, j < k → 0 < sys.fork (st.nfork + j)) (hf : sys.fork (st.nfork + k) = -1) :
    ∃ vec1, execute_for sys (cmds.map Slot.ptr ++ Slot.null :: tail) i st =
      .ok (vec1, { nfork := st.nfork + (k + 1), nwait := st.nwait,
                   log := st.log ++ fork_events sys st.nfork (cmds.take (k + 1)) ++
                     [Event.stderr "Error: fork failed\n"] },
           Sum.inl (Outcome.returned (-1))) := by
  induction cmds generalizing i k st with
  | nil => simp at hk
  | cons c cs ih =>
    cases k with
    | zero =>
      have hf0 : sys.fork st.nfork = -1 := by simpa using hf
      refine ⟨Slot.ptr c :: (cs.map Slot.ptr ++ Slot.null :: tail), ?_⟩
      simp [execute_for, hf0, fork_events]
    | succ k =>
      have h0 : 0 < sys.fork st.nfork := by simpa using hs 0 (by omega)
      have hne0 : sys.fork st.nfork ≠ 0 := by omega
      have hne1 : sys.fork st.nfork ≠ -1 := by omega
      obtain ⟨v1, hv1⟩ := ih (i + 1) k
        { st with nfork := st.nfork + 1, log := st.log ++ [Event.fork c (sys.fork st.nfork)] }
        (by simpa using hk)
        (fun j hj => by
          have := hs (j + 1) (by omega)
          simpa [Nat.add_assoc, Nat.add_comm 1 j] using this)
        (by simpa [Nat.add_assoc, Nat.add_comm 1 k] using hf)
      refine ⟨Slot.ptr { c with pid := sys.fork st.nfork } :: v1, ?_⟩
      have e : (c :: cs).map Slot.ptr ++ Slot.null :: tail =
        Slot.ptr c :: (cs.map Slot.ptr ++ Slot.null :: tail) := rfl
      rw [e]
      simp only [execute_for, beq_iff_eq, hne0, hne1, if_false, fork_events,
        List.take_succ_cons]
      rw [hv1]
      simp [Nat.add_assoc, Nat.add_comm 1]

theorem execute_for_parent (sys : Sys) (cmds : List Command) (tail : List (Slot Command))
    (i : Nat) (st : Proc) (hp : ∀ n, sys.fork n ≠ 0) :
    ∃ vec1 st1 r, execute_for sys (cmds.map Slot.ptr ++ Slot.null :: tail) i st =
      .ok (vec1, st1, r) ∧ ((∃ n, r = Sum.inr n) ∨ r = Sum.inl (Outcome.returned (-1))) := by
  induction cmds generalizing i st with
  | nil => exact ⟨Slot.null :: tail, st, Sum.inr i, by simp [execute_for], Or.inl ⟨i, rfl⟩⟩
  | cons c cs ih =>
    by_cases h1 : sys.fork st.nfork = -1
    · refine ⟨Slot.ptr c :: (cs.map Slot.ptr ++ Slot.null :: tail),
        { nfork := st.nfork + 1, nwait := st.nwait,
          log := st.log ++ [Event.fork c (-1), Event.stderr "Error: fork failed\n"] },
        Sum.inl (Outcome.returned (-1)), ?_, Or.inr rfl⟩
      simp [execute_for, h1]
    · obtain ⟨v1, st1, r, hv1, hr⟩ := ih (i + 1)
        { st with nfork := st.nfork + 1, log := st.log ++ [Event.fork c (sys.fork st.nfork)] }
      refine ⟨Slot.ptr { c with pid := sys.fork st.nfork } :: v1, st1, r, ?_, hr⟩
      have e : (c :: cs).map Slot.ptr ++ Slot.null :: tail =
        Slot.ptr c :: (cs.map Slot.ptr ++ Slot.null :: tail) := rfl
      rw [e]
      simp only [execute_for, beq_iff_eq, hp st.nfork, h1, if_false]
      rw [hv1]

theorem execute_parent (sys : Sys) (vec : List (Slot Command)) (cmds : List Command)
    (st : Proc) (hv : read_vec vec = .ok cmds) (hp : ∀ n, sys.fork n ≠ 0) :
    ∃ v vec1 st1, execute sys vec st = .ok (Outcome.returned v, vec1, st1) := by
  obtain ⟨tail, rfl⟩ := read_vec_ok vec cmds hv
  obtain ⟨v1, st1, r, hv1, hr⟩ := execute_for_parent sys cmds tail 0 st hp
  rcases hr with ⟨n, rfl⟩ | rfl
  · exact ⟨(execute_while sys n 0 st1).1, v1, (execute_while sys n 0 st1).2,
      by simp only [execute, hv1]⟩
  · exact ⟨-1, v1, st1, by simp only [execute, hv1]⟩

/-! ## Further lemmas for the main results -/

theorem VecInv.sentinel {α : Type} {vec : List (Slot α)} {len cap : Nat} {xs : List α}
    (h : VecInv vec len cap xs) : vec[len]? = some Slot.null := by
  obtain ⟨hl, _, _, tail, hv⟩ := h
  rw [hv, hl, List.getElem?_append_right (by simp)]
  simp

theorem mem_of_mem_splitOnP (p : Char → Bool) (s seg : CString) (c : Char)
    (hseg : seg ∈ s.splitOnP p) (hc : c ∈ seg) : c ∈ s := by
  induction s generalizing seg with
  | nil => simp at hseg; subst hseg; simp at hc
  | cons x xs ih =>
    rw [List.splitOnP_cons] at hseg
    by_cases hx : p x = true
    · simp only [hx, if_true, List.mem_cons] at hseg
      rcases hseg with rfl | hseg
      · simp at hc
      · exact List.mem_cons_of_mem x (ih seg hseg hc)
    · simp only [hx, Bool.false_eq_true, if_false] at hseg
      cases hsp : xs.splitOnP p with
      | nil => exact absurd hsp (List.splitOnP_ne_nil p xs)
      | cons h t =>
        rw [hsp] at hseg ih
        simp only [List.modifyHead_cons, List.mem_cons] at hseg
        rcases hseg with rfl | hseg
        · rcases List.mem_cons.mp hc with rfl | hc1
          · exact List.mem_cons_self _ _
          · exact List.mem_cons_of_mem x (ih h (List.mem_cons_self _ _) hc1)
        · exact List.mem_cons_of_mem x (ih seg (List.mem_cons_of_mem _ hseg) hc)

theorem mem_fields_sub (p : Char → Bool) (s t : CString) (ht : t ∈ fields p s) :
    ∀ c ∈ t, c ∈ s ∧ p c = false := by
  generalize hn : s.length = n
  induction n using Nat.strong_induction_on generalizing s t with
  | _ n ih =>
    intro c hc
    subst hn
    cases hd : s.dropWhile p with
    | nil =>
      rw [← fields_dropWhile, hd, fields_nil] at ht
      simp at ht
    | cons d ds =>
      have hsp : p d = false := by
        have := List.head_dropWhile_not p s (by rw [hd]; simp)
        simpa [hd] using this
      have hsub : ∀ x ∈ d :: ds, x ∈ s := fun x hx =>
        (List.dropWhile_sublist p).subset (hd ▸ hx)
      have hlen : (d :: ds).length ≤ s.length := by
        rw [← hd]
        exact (List.dropWhile_sublist p).length_le
      rw [← fields_dropWhile, hd, fields_cons_tok p d ds hsp] at ht
      rcases List.mem_cons.mp ht with rfl | ht1
      · refine ⟨hsub c ((List.takeWhile_sublist _).subset hc), ?_⟩
        have := List.mem_takeWhile_imp hc
        simpa using this
      · have hl2 : ((d :: ds).dropWhile (fun c => !p c)).length < s.length := by
          have h1 : (d :: ds).dropWhile (fun c => !p c) = ds.dropWhile (fun c => !p c) := by
            simp [List.dropWhile_cons, hsp]
          have h2 : (ds.dropWhile (fun c => !p c)).length ≤ ds.length :=
            (List.dropWhile_sublist _).length_le
          rw [h1]
          simp at hlen
          omega
        obtain ⟨hm, hpc⟩ := ih _ hl2 _ t ht1 rfl c hc
        exact ⟨hsub c ((List.dropWhile_sublist _).subset hm), hpc⟩

theorem command_of_nil : command_of [] = none := rfl

theorem filterMap_fields (p : Char → Bool) (s : CString) :
    (fields p s).filterMap command_of = (s.splitOnP p).filterMap command_of := by
  unfold fields
  generalize s.splitOnP p = l
  induction l with
  | nil => rfl
  | cons t ts ih =>
    cases t with
    | nil => simp [command_of_nil, ih]
    | cons a as =>
      rw [List.filter_cons_of_pos (by simp), List.filterMap_cons, List.filterMap_cons, ih]

theorem parse_buffer_loop_chain (fuel : Nat) (p : Option CString) (save : CString)
    (vec : List (Slot Command)) (size cap : Nat) (vec1 : List (Slot Command))
    (h : parse_buffer_loop fuel p save vec size cap = .ok vec1) :
    ∃ cmds size1 cap1, append_all (vec, size, cap) cmds = .ok (vec1, size1, cap1) := by
  induction fuel generalizing p save vec size cap with
  | zero =>
    cases p with
    | none =>
      simp only [parse_buffer_loop] at h
      cases h
      exact ⟨[], size, cap, rfl⟩
    | some t => simp [parse_buffer_loop] at h
  | succ fuel ih =>
    cases p with
    | none =>
      simp only [parse_buffer_loop] at h
      cases h
      exact ⟨[], size, cap, rfl⟩
    | some t =>
      unfold parse_buffer_loop at h
      split at h
      · cases h
      · exact ih _ _ _ _ _ h
      · rename_i command _
        split at h
        · cases h
        · rename_i v1 s1 c1 he
          obtain ⟨cmds, s2, c2, hc⟩ := ih _ _ _ _ _ h
          refine ⟨command :: cmds, s2, c2, ?_⟩
          unfold append_all
          rw [he]
          exact hc

/-! ## Main results on parsing -/

/-- C1: for every command string that contains a non-whitespace character, `parse_command`
returns a command whose `argv` block holds exactly the maximal non-whitespace runs of the
string, in left-to-right order, followed by the null sentinel at index `argc`; `argc` is the
number of runs and the program name is the first run. -/
theorem parse_command_argv_is_runs (s : CString) (hs : NulFree s)
    (hne : ∃ c ∈ s, isspace c = false) :
    ∃ c, parse_command s = .ok (some c) ∧
      read_vec c.argv = .ok (fields isspace s) ∧
      c.argv[c.argc]? = some Slot.null ∧
      c.argc = (fields isspace s).length ∧
      (fields isspace s).head? = some c.cmd := by
  have hn : ¬ ∀ c ∈ s, isspace c = true := by
    intro hall
    obtain ⟨c, hc, hsp⟩ := hne
    rw [hall c hc] at hsp
    exact Bool.noConfusion hsp
  obtain ⟨c, rest, hp, hf, _, hinv⟩ := parse_command_some s hs hn
  exact ⟨c, hp, hinv.read, hinv.sentinel, hinv.1, by rw [hf]; rfl⟩

/-- The tokenizer example of C1: `echo a b c` gives program `echo` and arguments
`echo`, `a`, `b`, `c`. -/
theorem parse_command_argv_is_runs_witness :
    NulFree "echo a b c".toList ∧ (∃ c ∈ "echo a b c".toList, isspace c = false) ∧
    ∃ c, parse_command "echo a b c".toList = .ok (some c) ∧
      c.cmd = "echo".toList ∧
      read_vec c.argv = .ok ["echo".toList, "a".toList, "b".toList, "c".toList] ∧
      c.argv[4]? = some Slot.null ∧ c.argc = 4 := by
  have hs : NulFree "echo a b c".toList := by unfold NulFree; decide
  have hne : ∃ c ∈ "echo a b c".toList, isspace c = false := ⟨'e', by decide, by decide⟩
  have hf : fields isspace "echo a b c".toList =
      ["echo".toList, "a".toList, "b".toList, "c".toList] := by decide
  obtain ⟨c, hp, hr, hsent, hargc, hcmd⟩ :=
    parse_command_argv_is_runs "echo a b c".toList hs hne
  rw [hf] at hr hargc hcmd
  have hc4 : c.argc = 4 := hargc
  rw [hc4] at hsent
  exact ⟨hs, hne, c, hp, by simpa using hcmd.symm, hr, hsent, hc4⟩

/-- C6: `parse_command` returns `NULL` exactly when the string is empty or consists solely of
whitespace; for every other string it returns a command. -/
theorem parse_command_null_iff (s : CString) (hs : NulFree s) :
    (parse_command s = .ok none ↔ ∀ c ∈ s, isspace c = true) ∧
    ((¬ ∀ c ∈ s, isspace c = true) → ∃ c, parse_command s = .ok (some c)) := by
  refine ⟨⟨fun h => ?_, parse_command_blank s⟩, fun hn => ?_⟩
  · by_contra hn
    obtain ⟨c, _, hp, _⟩ := parse_command_some s hs hn
    rw [hp] at h
    cases h
  · obtain ⟨c, _, hp, _⟩ := parse_command_some s hs hn
    exact ⟨c, hp⟩

/-- Instances of C6: a blank string gives `NULL`, and the criterion holds for `ls`. -/
theorem parse_command_null_iff_witness :
    NulFree " \t ".toList ∧ parse_command " \t ".toList = .ok none ∧
    NulFree "ls".toList ∧ ∃ c, parse_command "ls".toList = .ok (some c) := by
  have h1 : NulFree " \t ".toList := by unfold NulFree; decide
  have h2 : NulFree "ls".toList := by unfold NulFree; decide
  exact ⟨h1, (parse_command_null_iff _ h1).1.mpr (by decide), h2,
    (parse_command_null_iff _ h2).2 (by decide)⟩

/-- C7: whenever `parse_command` returns a command, the first entry of its argument list is
the program name `cmd`, and `argc` is one plus the number of whitespace-delimited tokens that
follow the first token of the string. -/
theorem parse_command_argv_zero (s : CString) (c : Command) (hs : NulFree s)
    (h : parse_command s = .ok (some c)) :
    ∃ rest, fields isspace s = c.cmd :: rest ∧
      c.argv[0]? = some (Slot.ptr c.cmd) ∧
      read_vec c.argv = .ok (c.cmd :: rest) ∧
      c.argc = 1 + rest.length := by
  have hn : ¬ ∀ c ∈ s, isspace c = true := by
    intro hall
    rw [parse_command_blank s hall] at h
    cases h
  obtain ⟨c1, rest, hp, hf, _, hinv⟩ := parse_command_some s hs hn
  rw [hp] at h
  cases h
  refine ⟨rest, hf, ?_, hf ▸ hinv.read, ?_⟩
  · obtain ⟨_, _, _, tail, hv⟩ := hinv
    rw [hv, hf]
    simp
  · have := hinv.1
    rw [hf] at this
    simp at this
    omega

/-- An instance of C7: `ls -l /tmp`. -/
theorem parse_command_argv_zero_witness :
    ∃ c, parse_command "ls -l /tmp".toList = .ok (some c) ∧
      c.argv[0]? = some (Slot.ptr c.cmd) ∧ c.cmd = "ls".toList ∧ c.argc = 1 + 2 := by
  have hs : NulFree "ls -l /tmp".toList := by unfold NulFree; decide
  obtain ⟨c, _, hc, _⟩ := parse_command_some "ls -l /tmp".toList hs (by decide)
  obtain ⟨rest, hf, h0, _, hargc⟩ := parse_command_argv_zero "ls -l /tmp".toList c hs hc
  have hfe : fields isspace "ls -l /tmp".toList = ["ls".toList, "-l".toList, "/tmp".toList] := by
    decide
  rw [hfe] at hf
  have h1 : c.cmd = "ls".toList := by simpa using (List.cons.inj hf).1.symm
  have h2 : rest.length = 2 := by
    rw [← (List.cons.inj hf).2]
    rfl
  exact ⟨c, hc, h0, h1, by rw [hargc, h2]⟩

/-- C2: for every input line, `parse_buffer` returns the commands obtained by cutting the line
at every `;` and newline, applying `parse_command` to each segment and dropping the segments
that give no command; the commands stand in the block in order of appearance and are followed
by the null sentinel. -/
theorem parse_buffer_commands (line : CString) (hs : NulFree line) :
    ∃ vec, parse_buffer line = .ok vec ∧
      (∀ seg ∈ line.splitOnP is_sep, parse_command seg = .ok (command_of seg)) ∧
      read_vec vec = .ok ((line.splitOnP is_sep).filterMap command_of) ∧
      vec[((line.splitOnP is_sep).filterMap command_of).length]? = some Slot.null := by
  obtain ⟨vec, size, cap, hp, hinv⟩ := parse_buffer_spec line hs
  rw [filterMap_fields] at hinv
  refine ⟨vec, hp, ?_, hinv.read, ?_⟩
  · intro seg hseg
    exact parse_command_total seg (fun c hc => hs c (mem_of_mem_splitOnP is_sep line seg c hseg hc))
  · rw [← hinv.1]
    exact hinv.sentinel

/-- The scenario of C2: the line `ls; pwd` with its newline gives `ls` with arguments `ls`,
then `pwd` with arguments `pwd`. -/
theorem parse_buffer_commands_witness :
    NulFree "ls; pwd\n".toList ∧
    ∃ vec, parse_buffer "ls; pwd\n".toList = .ok vec ∧
      read_vec vec = .ok
        [{ cmd := "ls".toList, argv := [Slot.ptr "ls".toList, Slot.null, Slot.garbage],
           argc := 1, argv_size := 2, pid := 0 },
         { cmd := "pwd".toList, argv := [Slot.ptr "pwd".toList, Slot.null, Slot.garbage],
           argc := 1, argv_size := 2, pid := 0 }] ∧
      vec[2]? = some Slot.null := by
  have hs : NulFree "ls; pwd\n".toList := by unfold NulFree; decide
  obtain ⟨vec, hp, _, hr, hsent⟩ := parse_buffer_commands "ls; pwd\n".toList hs
  exact ⟨hs, vec, hp, hr, hsent⟩

theorem filterMap_eq_nil_of_forall {α β : Type} (f : α → Option β) (l : List α)
    (h : ∀ t ∈ l, f t = none) : l.filterMap f = [] := by
  induction l with
  | nil => rfl
  | cons t ts ih =>
    rw [List.filterMap_cons, h t (List.mem_cons_self t ts)]
    exact ih (fun u hu => h u (List.mem_cons_of_mem t hu))

theorem execute_sentinel_first (sys : Sys) (tail : List (Slot Command)) (st : Proc) :
    execute sys (Slot.null :: tail) st = .ok (Outcome.returned 0, Slot.null :: tail, st) := by
  simp [execute, execute_for, execute_while]

/-- C8: for every line made only of whitespace and separators (the empty line included),
`parse_buffer` returns a command block with zero commands whose first slot is the sentinel,
and `execute` on it makes no system call and returns 0. -/
theorem parse_buffer_blank_line (line : CString)
    (h : ∀ c ∈ line, isspace c = true ∨ is_sep c = true) :
    ∃ vec, parse_buffer line = .ok vec ∧ read_vec vec = .ok [] ∧
      vec[0]? = some Slot.null ∧
      ∀ (sys : Sys) (st : Proc), execute sys vec st = .ok (Outcome.returned 0, vec, st) := by
  have hs : NulFree line := by
    intro c hc e
    subst e
    rcases h NUL hc with h1 | h1
    · rw [isspace_NUL] at h1
      exact Bool.noConfusion h1
    · exact absurd h1 (by decide)
  obtain ⟨vec, size, cap, hp, hinv⟩ := parse_buffer_spec line hs
  have hnil : (fields is_sep line).filterMap command_of = [] := by
    apply filterMap_eq_nil_of_forall
    intro t ht
    have hall : ∀ c ∈ t, isspace c = true := by
      intro c hc
      obtain ⟨hm, hsep⟩ := mem_fields_sub is_sep line t ht c hc
      rcases h c hm with h1 | h1
      · exact h1
      · rw [hsep] at h1
        exact Bool.noConfusion h1
    simp [command_of, parse_command_blank t hall]
  rw [hnil] at hinv
  obtain ⟨_, _, _, tail, hv⟩ := hinv
  have hv2 : vec = Slot.null :: tail := by simpa using hv
  subst hv2
  exact ⟨_, hp, rfl, by simp, fun sys st => execute_sentinel_first sys tail st⟩

/-- The scenario of C8: a line of three spaces and a newline. -/
theorem parse_buffer_blank_line_witness :
    (∀ c ∈ "   \n".toList, isspace c = true ∨ is_sep c = true) ∧
    ∃ vec, parse_buffer "   \n".toList = .ok vec ∧ read_vec vec = .ok [] ∧
      vec[0]? = some Slot.null ∧
      ∀ (sys : Sys) (st : Proc), execute sys vec st = .ok (Outcome.returned 0, vec, st) :=
  ⟨by decide, parse_buffer_blank_line "   \n".toList (by decide)⟩

/-- C10: growth of the argument block of `parse_command` and of the command block of
`parse_buffer`.  After any sequence `xs` of appends from the initial block, the block has
capacity + 1 slots; the next append writes at the indices `length` and `length + 1`, both
inside the block; the capacity doubles exactly when the new length reaches it and is unchanged
otherwise; the new length is at most the new capacity; earlier entries are kept in order.
Every block returned by `parse_command` or `parse_buffer` is the result of such a sequence. -/
theorem append_growth_invariant :
    (∀ (α : Type) (xs : List α) (x : α), ∃ vec cap vec1 cap1,
      append_all (calloc (1 + 1), 0, 1) xs = .ok (vec, xs.length, cap) ∧
      append_entry vec xs.length cap x = .ok (vec1, xs.length + 1, cap1) ∧
      vec.length = cap + 1 ∧ xs.length + 1 < vec.length ∧
      cap1 = (if xs.length + 1 = cap then cap * 2 else cap) ∧
      vec1.length = cap1 + 1 ∧ xs.length + 1 ≤ cap1 ∧
      read_vec vec = .ok xs ∧ read_vec vec1 = .ok (xs ++ [x]) ∧
      ∀ i, i < xs.length → vec1[i]? = vec[i]?) ∧
    (∀ (s : CString) (c : Command), parse_command s = .ok (some c) →
      ∃ toks, append_all (calloc (1 + 1), 0, 1) toks = .ok (c.argv, c.argc, c.argv_size)) ∧
    (∀ (buffer : CString) (vec : List (Slot Command)), parse_buffer buffer = .ok vec →
      ∃ cmds size cap, append_all (calloc (1 + 1), 0, 1) cmds = .ok (vec, size, cap)) := by
  refine ⟨fun α xs x => ?_, fun s c h => ?_, fun buffer vec h => ?_⟩
  · obtain ⟨vec, cap, ha, hinv⟩ := append_all_spec xs [] (calloc (1 + 1)) 0 1 VecInv.init
    simp only [Nat.zero_add, List.nil_append] at ha hinv
    obtain ⟨vec1, cap1, he, hinv1, hcap, hkeep⟩ :=
      append_entry_spec vec xs.length cap xs x hinv
    have h1 := hinv.2.1
    have h2 := hinv.2.2.1
    have h3 := hinv1.2.1
    exact ⟨vec, cap, vec1, cap1, ha, he, h2, by omega, hcap, hinv1.2.2.1, by omega,
      hinv.read, hinv1.read, hkeep⟩
  · unfold parse_command at h
    simp only at h
    split at h
    · cases h
    · split at h
      · cases h
      · rename_i c1 hl
        cases h
        exact parse_command_loop_chain _ _ _ _ hl
  · unfold parse_buffer at h
    exact parse_buffer_loop_chain _ _ _ _ _ _ _ h

/-- Instances of C10: the fourth append to a block that holds three entries, and the blocks
built for `echo a b c` and for `ls; pwd`. -/
theorem append_growth_invariant_witness :
    (∃ vec cap vec1 cap1,
      append_all (calloc (1 + 1), 0, 1) [10, 20, 30] = .ok (vec, 3, cap) ∧
      append_entry vec 3 cap 40 = .ok (vec1, 4, cap1) ∧
      read_vec vec1 = .ok [10, 20, 30, 40]) ∧
    (∃ c toks, parse_command "echo a b c".toList = .ok (some c) ∧
      append_all (calloc (1 + 1), 0, 1) toks = .ok (c.argv, c.argc, c.argv_size)) ∧
    (∃ vec cmds size cap, parse_buffer "ls; pwd\n".toList = .ok vec ∧
      append_all (calloc (1 + 1), 0, 1) cmds = .ok (vec, size, cap)) := by
  refine ⟨?_, ?_, ?_⟩
  · obtain ⟨vec, cap, vec1, cap1, ha, he, _, _, _, _, _, _, hr, _⟩ :=
      append_growth_invariant.1 Nat [10, 20, 30] 40
    exact ⟨vec, cap, vec1, cap1, ha, he, hr⟩
  · obtain ⟨c, _, hc, _⟩ := parse_command_some "echo a b c".toList
      (by unfold NulFree; decide) (by decide)
    obtain ⟨toks, ht⟩ := append_growth_invariant.2.1 _ c hc
    exact ⟨c, toks, hc, ht⟩
  · obtain ⟨vec, _, _, hv, _⟩ := parse_buffer_spec "ls; pwd\n".toList
      (by unfold NulFree; decide)
    obtain ⟨cmds, size, cap, ha⟩ := append_growth_invariant.2.2 _ vec hv
    exact ⟨vec, cmds, size, cap, hv, ha⟩

/-! ## Lemmas on 32-bit `int` -/

theorem int_bits_lt (x : Int) : int_bits x < 2 ^ 32 := by
  unfold int_bits
  omega

theorem int_bits_of_bits (n : Nat) (h : n < 2 ^ 32) : int_bits (int_of_bits n) = n := by
  unfold int_bits int_of_bits
  split <;> omega

theorem int_or_right_comm (z x y : Int) : int_or (int_or z x) y = int_or (int_or z y) x := by
  unfold int_or
  rw [int_bits_of_bits _ (Nat.or_lt_two_pow (int_bits_lt z) (int_bits_lt x)),
    int_bits_of_bits _ (Nat.or_lt_two_pow (int_bits_lt z) (int_bits_lt y)),
    Nat.or_assoc, Nat.or_comm (int_bits x), ← Nat.or_assoc]

/-! ## Main results on `execute` -/

/-- C4: when every `fork` succeeds for a list of N commands, `execute` calls `fork` N times,
once per command in list order, then calls `wait` N times, and returns the bitwise OR of the
N reported statuses (0 when N = 0); the value is the same for every order `statuses` in which
those N statuses may be listed. -/
theorem execute_spawns_then_waits (sys : Sys) (vec : List (Slot Command))
    (cmds : List Command) (st : Proc) (statuses : List Int)
    (hv : read_vec vec = .ok cmds)
    (hf : ∀ k, k < cmds.length → 0 < sys.fork (st.nfork + k))
    (hp : statuses.Perm (wait_statuses sys st.nwait cmds.length)) :
    ∃ vec1, execute sys vec st =
      .ok (Outcome.returned (statuses.foldl int_or 0), vec1,
        { nfork := st.nfork + cmds.length, nwait := st.nwait + cmds.length,
          log := st.log ++ fork_events sys st.nfork cmds ++
            (wait_statuses sys st.nwait cmds.length).map Event.wait }) := by
  obtain ⟨tail, rfl⟩ := read_vec_ok vec cmds hv
  obtain ⟨vec1, h1⟩ := execute_for_all sys cmds tail 0 st hf
  refine ⟨vec1, ?_⟩
  have hfold := hp.foldl_eq' (fun x _ y _ z => int_or_right_comm z x y) 0
  simp only [execute, h1, execute_while_eq, Nat.zero_add]
  rw [hfold]

/-- An instance of C4: two commands whose statuses 256 and 1 are reported in that order. -/
theorem execute_spawns_then_waits_witness :
    ∃ vec1, execute
        { fork := fun n => 100 + n, wait := fun n => if n = 0 then 256 else 1,
          execvp := fun _ => false }
        [Slot.ptr { cmd := "ls".toList, argv := [Slot.ptr "ls".toList, Slot.null],
                    argc := 1, argv_size := 2, pid := 0 },
         Slot.ptr { cmd := "pwd".toList, argv := [Slot.ptr "pwd".toList, Slot.null],
                    argc := 1, argv_size := 2, pid := 0 },
         Slot.null]
        { nfork := 0, nwait := 0, log := [] } =
      .ok (Outcome.returned 257, vec1,
        { nfork := 2, nwait := 2,
          log := [Event.fork { cmd := "ls".toList, argv := [Slot.ptr "ls".toList, Slot.null],
                               argc := 1, argv_size := 2, pid := 0 } 100,
                  Event.fork { cmd := "pwd".toList, argv := [Slot.ptr "pwd".toList, Slot.null],
                               argc := 1, argv_size := 2, pid := 0 } 101,
                  Event.wait 256, Event.wait 1] }) :=
  execute_spawns_then_waits
    { fork := fun n => 100 + n, wait := fun n => if n = 0 then 256 else 1,
      execvp := fun _ => false }
    _ [{ cmd := "ls".toList, argv := [Slot.ptr "ls".toList, Slot.null],
         argc := 1, argv_size := 2, pid := 0 },
       { cmd := "pwd".toList, argv := [Slot.ptr "pwd".toList, Slot.null],
         argc := 1, argv_size := 2, pid := 0 }]
    { nfork := 0, nwait := 0, log := [] } [1, 256] rfl
    (by intro k hk; simp at hk ⊢; omega)
    (List.Perm.swap 256 1 [])

/-- C9: when `fork` fails at command number `k` of the list (the earlier ones having been
spawned), `execute` makes no `fork` call for any later command and returns -1. -/
theorem execute_fork_failure_aborts (sys : Sys) (vec : List (Slot Command))
    (cmds : List Command) (st : Proc) (k : Nat)
    (hv : read_vec vec = .ok cmds) (hk : k < cmds.length)
    (hs : ∀ j, j < k → 0 < sys.fork (st.nfork + j))
    (hf : sys.fork (st.nfork + k) = -1) :
    ∃ vec1 st1, execute sys vec st = .ok (Outcome.returned (-1), vec1, st1) ∧
      st1.nfork = st.nfork + (k + 1) ∧
      st1.log = st.log ++ fork_events sys st.nfork (cmds.take (k + 1)) ++
        [Event.stderr "Error: fork failed\n"] := by
  obtain ⟨tail, rfl⟩ := read_vec_ok vec cmds hv
  obtain ⟨vec1, h1⟩ := execute_for_fail sys cmds tail 0 k st hk hs hf
  refine ⟨vec1,
    { nfork := st.nfork + (k + 1), nwait := st.nwait,
      log := st.log ++ fork_events sys st.nfork (cmds.take (k + 1)) ++
        [Event.stderr "Error: fork failed\n"] }, ?_, rfl, rfl⟩
  simp only [execute, h1]

/-- An instance of C9: three commands, `fork` fails at the second. -/
theorem execute_fork_failure_aborts_witness :
    ∃ vec1 st1, execute
        { fork := fun n => if n = 0 then 100 else -1, wait := fun _ => 0,
          execvp := fun _ => false }
        [Slot.ptr { cmd := "a".toList, argv := [], argc := 0, argv_size := 0, pid := 0 },
         Slot.ptr { cmd := "b".toList, argv := [], argc := 0, argv_size := 0, pid := 0 },
         Slot.ptr { cmd := "c".toList, argv := [], argc := 0, argv_size := 0, pid := 0 },
         Slot.null]
        { nfork := 0, nwait := 0, log := [] } = .ok (Outcome.returned (-1), vec1, st1) ∧
      st1.nfork = 2 ∧
      st1.log =
        [Event.fork { cmd := "a".toList, argv := [], argc := 0, argv_size := 0, pid := 0 } 100,
         Event.fork { cmd := "b".toList, argv := [], argc := 0, argv_size := 0, pid := 0 } (-1),
         Event.stderr "Error: fork failed\n"] :=
  execute_fork_failure_aborts
    { fork := fun n => if n = 0 then 100 else -1, wait := fun _ => 0,
      execvp := fun _ => false }
    _ [{ cmd := "a".toList, argv := [], argc := 0, argv_size := 0, pid := 0 },
       { cmd := "b".toList, argv := [], argc := 0, argv_size := 0, pid := 0 },
       { cmd := "c".toList, argv := [], argc := 0, argv_size := 0, pid := 0 }]
    { nfork := 0, nwait := 0, log := [] } 1 rfl (by decide)
    (by intro j hj; have : j = 0 := by omega
        subst this; decide)
    rfl

/-- On a `fork` failure `execute` returns without any call of `wait`, however many children
it has spawned before. -/
theorem execute_fork_failure_no_wait (sys : Sys) (vec : List (Slot Command))
    (cmds : List Command) (st : Proc) (k : Nat)
    (hv : read_vec vec = .ok cmds) (hk : k < cmds.length)
    (hs : ∀ j, j < k → 0 < sys.fork (st.nfork + j))
    (hf : sys.fork (st.nfork + k) = -1) :
    ∃ vec1 st1, execute sys vec st = .ok (Outcome.returned (-1), vec1, st1) ∧
      st1.nwait = st.nwait := by
  obtain ⟨tail, rfl⟩ := read_vec_ok vec cmds hv
  obtain ⟨vec1, h1⟩ := execute_for_fail sys cmds tail 0 k st hk hs hf
  refine ⟨vec1,
    { nfork := st.nfork + (k + 1), nwait := st.nwait,
      log := st.log ++ fork_events sys st.nfork (cmds.take (k + 1)) ++
        [Event.stderr "Error: fork failed\n"] }, ?_, rfl⟩
  simp only [execute, h1]

/-- C3 at a concrete input: for the line `ls; pwd`, with `fork` succeeding for `ls` (child
100) and failing for `pwd`, `execute` returns -1 after two `fork` calls and no `wait` call,
although one child has been spawned. -/
theorem execute_fork_failure_leaves_child :
    ∃ vec vec1, parse_buffer "ls; pwd\n".toList = .ok vec ∧
      execute
        { fork := fun n => if n = 0 then 100 else -1, wait := fun _ => 0,
          execvp := fun _ => false }
        vec { nfork := 0, nwait := 0, log := [] } =
      .ok (Outcome.returned (-1), vec1,
        { nfork := 2, nwait := 0,
          log := [Event.fork { cmd := "ls".toList,
                               argv := [Slot.ptr "ls".toList, Slot.null, Slot.garbage],
                               argc := 1, argv_size := 2, pid := 0 } 100,
                  Event.fork { cmd := "pwd".toList,
                               argv := [Slot.ptr "pwd".toList, Slot.null, Slot.garbage],
                               argc := 1, argv_size := 2, pid := 0 } (-1),
                  Event.stderr "Error: fork failed\n"] }) :=
  ⟨_, _, rfl, rfl⟩

/-! ## Main result on the session loop -/

theorem toNat_inj (a b : Char) (h : a.toNat = b.toNat) : a = b := by
  rw [← Char.ofNat_toNat a, h, Char.ofNat_toNat]

theorem strcmp_eq_zero_iff (a b : CString) (ha : NulFree a) (hb : NulFree b) :
    strcmp a b = 0 ↔ a = b := by
  induction a generalizing b with
  | nil =>
    cases b with
    | nil => simp [strcmp]
    | cons y ys =>
      have hy : y ≠ NUL := hb y (List.mem_cons_self y ys)
      have : y.toNat ≠ 0 := fun h => hy (toNat_inj y NUL h)
      simp only [strcmp]
      constructor
      · intro h; omega
      · intro h; cases h
  | cons x xs ih =>
    have hx : x ≠ NUL := ha x (List.mem_cons_self x xs)
    cases b with
    | nil =>
      have : x.toNat ≠ 0 := fun h => hx (toNat_inj x NUL h)
      simp only [strcmp]
      constructor
      · intro h; omega
      · intro h; cases h
    | cons y ys =>
      by_cases hxy : x = y
      · subst hxy
        simp [strcmp, hx, ih ys ha.tail hb.tail]
      · have : x.toNat ≠ y.toNat := fun h => hxy (toNat_inj x y h)
        simp only [strcmp, bne_iff_ne, ne_eq, hxy, not_false_eq_true, if_true]
        constructor
        · intro h; omega
        · intro h; exact absurd (List.cons.inj h).1 hxy

theorem NulFree_QUIT : NulFree QUIT := by
  unfold NulFree
  decide

/-- C5: for every sequence of lines delivered by `get_input`, the session loop parses and
executes exactly the lines that precede the first line equal to `quit` with its newline (all
lines when there is none), in order, executes nothing after it, and exits with the success
status, whatever `execute` returned.  The process followed is the shell itself: `fork` does
not return 0 in it. -/
theorem main_loop_session (sys : Sys) (mode : MODE) (lines : FILE) (st : Proc)
    (hl : ∀ l ∈ lines, NulFree l) (hp : ∀ n, sys.fork n ≠ 0) :
    ∃ st1, run_lines sys mode (lines.takeWhile (fun l => l != QUIT)) st = .ok st1 ∧
      main_loop sys mode lines st =
        .ok (Outcome.exited EXIT_SUCCESS, show_prompt mode st1) := by
  induction lines generalizing st with
  | nil => exact ⟨st, rfl, rfl⟩
  | cons l ls ih =>
    have hnl : NulFree l := hl l (List.mem_cons_self l ls)
    by_cases hq : l = QUIT
    · refine ⟨st, ?_, ?_⟩
      · simp [hq, run_lines]
      · have h0 : strcmp l QUIT = 0 := (strcmp_eq_zero_iff l QUIT hnl NulFree_QUIT).mpr hq
        simp [main_loop, h0]
    · have h0 : strcmp l QUIT ≠ 0 := fun h =>
        hq ((strcmp_eq_zero_iff l QUIT hnl NulFree_QUIT).mp h)
      obtain ⟨vec, size, cap, hpb, hinv⟩ := parse_buffer_spec l hnl
      obtain ⟨v, vec1, st1, hex⟩ := execute_parent sys vec _ (show_prompt mode st) hinv.read hp
      obtain ⟨st2, hr2, hm2⟩ := ih st1 (fun m hm => hl m (List.mem_cons_of_mem l hm))
      refine ⟨st2, ?_, ?_⟩
      · have ht : (l :: ls).takeWhile (fun l => l != QUIT) =
            l :: ls.takeWhile (fun l => l != QUIT) := by
          simp [List.takeWhile_cons, hq]
        rw [ht]
        simp only [run_lines, hpb, hex]
        exact hr2
      · simp only [main_loop, beq_iff_eq, h0, if_false, hpb, hex]
        exact hm2

/-- An instance of C5: a batch session of three lines whose second line is `quit`, with every
`fork` failing, so that `execute` returns -1 for the first line.  Only the first line is
executed and the exit status is 0. -/
theorem main_loop_session_witness :
    (∀ l ∈ ["ls\n".toList, "quit\n".toList, "pwd\n".toList], NulFree l) ∧
    main_loop { fork := fun _ => -1, wait := fun _ => 0, execvp := fun _ => false }
        MODE.BATCH ["ls\n".toList, "quit\n".toList, "pwd\n".toList]
        { nfork := 0, nwait := 0, log := [] } =
      .ok (Outcome.exited 0,
        { nfork := 1, nwait := 0,
          log := [Event.fork { cmd := "ls".toList,
                               argv := [Slot.ptr "ls".toList, Slot.null, Slot.garbage],
                               argc := 1, argv_size := 2, pid := 0 } (-1),
                  Event.stderr "Error: fork failed\n"] }) := by
  have hl : ∀ l ∈ ["ls\n".toList, "quit\n".toList, "pwd\n".toList], NulFree l := by
    unfold NulFree
    decide
  obtain ⟨st1, hr, hm⟩ := main_loop_session
    { fork := fun _ => -1, wait := fun _ => 0, execvp := fun _ => false }
    MODE.BATCH ["ls\n".toList, "quit\n".toList, "pwd\n".toList]
    { nfork := 0, nwait := 0, log := [] } hl (by intro n; simp)
  have he : run_lines { fork := fun _ => -1, wait := fun _ => 0, execvp := fun _ => false }
      MODE.BATCH
      (["ls\n".toList, "quit\n".toList, "pwd\n".toList].takeWhile (fun l => l != QUIT))
      { nfork := 0, nwait := 0, log := [] } =
      .ok { nfork := 1, nwait := 0,
            log := [Event.fork { cmd := "ls".toList,
                                 argv := [Slot.ptr "ls".toList, Slot.null, Slot.garbage],
                                 argc := 1, argv_size := 2, pid := 0 } (-1),
                    Event.stderr "Error: fork failed\n"] } := rfl
  rw [he] at hr
  cases hr
  exact ⟨hl, hm⟩

end Shell
